import Mathlib

set_option maxRecDepth 8000

/-
Verification development for the igneous skeletonization pipeline
(src/igneous/tasks/skeletonization/skeletonization.py and tasks.py).

Definitions below are shallow embeddings of the Python source.  Numpy
arrays of coordinates are lists of triples, Python dicts are association
lists in insertion order, and the persistence side effects of the stage-2
merge are modelled as explicit event traces.
-/

/-- Integer voxel coordinate, as stored in the numpy path arrays. -/
abbrev Coord : Type := ℕ × ℕ × ℕ

/-- Association-list lookup; models a Python dict lookup on coordinate keys. -/
def lookupA {α : Type} (k : Coord) : List (Coord × α) → Option α
  | [] => none
  | (k2, v) :: rest => if k2 = k then some v else lookupA k rest

/-- Association-list update-or-insert; models a Python dict assignment
(insertion order preserved, new keys appended at the end). -/
def setA {α : Type} (k : Coord) (v : α) : List (Coord × α) → List (Coord × α)
  | [] => [(k, v)]
  | (k2, v2) :: rest => if k2 = k then (k, v) :: rest else (k2, v2) :: setA k v rest

/-- State built by the registration loop of path_union
(skeletonization.py lines 98-117): tree = defaultdict(set) adjacency,
tid = the tree_id dict, verts = the vertices list, ct = the id counter.
Python set membership is modelled as a duplicate-free list in insertion
order; every property proved below is invariant under child order. -/
structure PUState where
  tree : List (Coord × List Coord)
  tid : List (Coord × ℕ)
  verts : List Coord
  ct : ℕ

/-- tree[parent].add(child) on a defaultdict(set). -/
def addChild (t : List (Coord × List Coord)) (p c : Coord) : List (Coord × List Coord) :=
  match lookupA p t with
  | none => setA p [c] t
  | some cs => if c ∈ cs then t else setA p (cs ++ [c]) t

/-- Python "if not child in tree: tree[child] = set()" (skeletonization.py lines 112-113). -/
def ensureKey (t : List (Coord × List Coord)) (c : Coord) : List (Coord × List Coord) :=
  match lookupA c t with
  | none => setA c [] t
  | some _ => t

/-- Python "if not x in tree_id: tree_id[x] = ct; vertices.append(x); ct += 1"
(skeletonization.py lines 108-111 and 114-117). -/
def reg1 (st : PUState) (x : Coord) : PUState :=
  if (lookupA x st.tid).isSome then st
  else { st with tid := st.tid ++ [(x, st.ct)], verts := st.verts ++ [x], ct := st.ct + 1 }

/-- One iteration of the registration loop body for a consecutive
(parent, child) pair (skeletonization.py lines 105-117), in source order. -/
def registerPair (st : PUState) (p c : Coord) : PUState :=
  let st1 : PUState := { st with tree := addChild st.tree p c }
  let st2 := reg1 st1 p
  let st3 : PUState := { st2 with tree := ensureKey st2.tree c }
  reg1 st3 c

/-- Python "for i in range(path.shape[0] - 1)": fold over consecutive pairs. -/
def registerPath (st : PUState) (path : List Coord) : PUState :=
  (path.zip path.tail).foldl (fun s pc => registerPair s pc.1 pc.2) st

/-- The whole registration loop over all paths (skeletonization.py lines 102-117). -/
def registerAll (paths : List (List Coord)) : PUState :=
  paths.foldl registerPath ⟨[], [], [], 0⟩

/-- tree[p] on the defaultdict: missing keys read as the empty set. -/
def childrenOf (t : List (Coord × List Coord)) (p : Coord) : List Coord :=
  (lookupA p t).getD []

/-- The body of one stack frame of the recursive traverse procedure of
path_union (skeletonization.py lines 122-127): iterate over the children
of p, look up tree_id[parent] and tree_id[child] (a missing key is a
KeyError, modelled as none), emit the edge, then descend into the child
through the continuation recur. -/
def traverseGo (tr : List (Coord × List Coord)) (idOf : Coord → Option ℕ)
    (recur : Coord → List Coord → Option (List (ℕ × ℕ))) (p : Coord) :
    List Coord → Option (List (ℕ × ℕ))
  | [] => some []
  | c :: cs =>
    match idOf p, idOf c with
    | some i, some j =>
      match recur c (childrenOf tr c), traverseGo tr idOf recur p cs with
      | some sub, some rest => some ((i, j) :: (sub ++ rest))
      | _, _ => none
    | _, _ => none

/-- The recursive traverse procedure of path_union (skeletonization.py
lines 122-127), with explicit recursion depth fuel (CPython has a finite
recursion limit; exhausting the fuel, like a dict KeyError, is a failure
and yields none).  The edge for a child is appended before the recursive
descent into that child, exactly as in the source. -/
def traverseL (tr : List (Coord × List Coord)) (idOf : Coord → Option ℕ) :
    ℕ → Coord → List Coord → Option (List (ℕ × ℕ))
  | 0, _, [] => some []
  | 0, _, _ :: _ => none
  | fuel + 1, p, cs => traverseGo tr idOf (traverseL tr idOf fuel) p cs

/-- path_union (skeletonization.py lines 93-140).  Returns the vertices
list (the source flattens it into a uint32 array of 3*|V| entries) and
the edge-index list (flattened into 2*|E| entries); none models a raised
exception (empty paths input raises IndexError at paths[0][0,:]). -/
def path_union (paths : List (List Coord)) (fuel : ℕ) :
    Option (List Coord × List (ℕ × ℕ)) :=
  match paths with
  | [] => none
  | [] :: _ => none
  | (root :: _) :: _ =>
    let st := registerAll paths
    match traverseL st.tree (fun c => lookupA c st.tid) fuel root (childrenOf st.tree root) with
    | none => none
    | some es => some (st.verts, es)

/-- Bounded reachability along the recorded parent-to-child adjacency:
reachB tr n p c holds when some chain of at most n recorded arcs leads
from p to c. -/
def reachB (tr : List (Coord × List Coord)) : ℕ → Coord → Coord → Bool
  | 0, p, c => p == c
  | n + 1, p, c => p == c || (childrenOf tr p).any (fun q => reachB tr n q c)

/-- Modelled from the spec: the number of disjoint roots of a path
collection, read as the number of distinct starting coordinates of the
paths ("paths sharing a common root" have one). -/
def disjointRoots (paths : List (List Coord)) : ℕ :=
  ((paths.filterMap List.head?).dedup).length

/- Rooted tree over coordinates, used to state when the adjacency
recorded by path_union actually forms a tree. -/
mutual
inductive VTree : Type where
  | node : Coord → VForest → VTree
inductive VForest : Type where
  | nil : VForest
  | cons : VTree → VForest → VForest
end

mutual
def VTree.size : VTree → ℕ
  | .node _ f => 1 + VForest.size f
def VForest.size : VForest → ℕ
  | .nil => 0
  | .cons t f => VTree.size t + VForest.size f
end

mutual
def VTree.labels : VTree → List Coord
  | .node x f => x :: VForest.labels f
def VForest.labels : VForest → List Coord
  | .nil => []
  | .cons t f => VTree.labels t ++ VForest.labels f
end

def VTree.top : VTree → Coord
  | .node x _ => x

def VForest.tops : VForest → List Coord
  | .nil => []
  | .cons t f => VTree.top t :: VForest.tops f

mutual
def VTree.ht : VTree → ℕ
  | .node _ f => VForest.ht f
def VForest.ht : VForest → ℕ
  | .nil => 0
  | .cons t f => max (1 + VTree.ht t) (VForest.ht f)
end

mutual
def VTree.agrees (adj : Coord → List Coord) : VTree → Bool
  | .node x f => (adj x == VForest.tops f) && VForest.agrees adj f
def VForest.agrees (adj : Coord → List Coord) : VForest → Bool
  | .nil => true
  | .cons t f => VTree.agrees adj t && VForest.agrees adj f
end

/- ------------------------------------------------------------------
TEASAR extraction loop (skeletonization.py lines 73-83).
find_target, dijkstra and roll_invalidation_ball live in the Cython
modules igneous.skeletontricks / igneous.dijkstra, which are repository
code not present under src/; they enter as parameters constrained by
their spec contracts, and the invalidation ball is modelled from the
spec.
------------------------------------------------------------------- -/

/-- Modelled from the spec: roll_invalidation_ball membership test.  A
voxel w is invalidated by a path when some path vertex v has
d v w <= scale * DBF(v) + const ("invalidate all foreground voxels
within radius r(v) = scale*DBF(v) + const of v").  The metric d and the
field dbf are parameters. -/
def ballCov {V : Type} (d : V → V → ℚ) (dbf : V → ℚ) (scale const : ℚ)
    (path : List V) (w : V) : Bool :=
  path.any (fun v => decide (d v w ≤ scale * dbf v + const))

/-- The while loop of TEASAR (skeletonization.py lines 76-83):
while valid_labels > 0: pick a target, extract a path, roll the
invalidation ball along it (remove every invalidated voxel from labels),
decrement valid_labels by the number invalidated, append the path.
findT models skeletontricks.find_target, genP models the dijkstra
root-to-target path query, inval models the ball membership test.
fuel bounds the number of iterations; the coverage theorem shows
card + 1 iterations always suffice under the spec contracts. -/
def teasarLoop {V : Type} [DecidableEq V] (findT : Finset V → V) (genP : V → List V)
    (inval : List V → V → Bool) : ℕ → ℕ → Finset V → List (List V)
  | 0, _, _ => []
  | fuel + 1, validLabels, labels =>
    if validLabels = 0 then []
    else
      let target := findT labels
      let path := genP target
      let newLabels := labels.filter (fun w => inval path w = false)
      path :: teasarLoop findT genP inval fuel
        (validLabels - (labels.card - newLabels.card)) newLabels

/-- Entry point of the loop: valid_labels = np.count_nonzero(labels)
(skeletonization.py line 74). -/
def TEASAR_paths {V : Type} [DecidableEq V] (findT : Finset V → V) (genP : V → List V)
    (inval : List V → V → Bool) (labels : Finset V) : List (List V) :=
  teasarLoop findT genP inval (labels.card + 1) labels.card labels

/-- DBF frame effect of TEASAR (skeletonization.py lines 42-56): compute
labels = DBF != 0, take any foreground voxel and the DBF maximum, return
early (leaving DBF untouched) when there is no foreground voxel or the
maximum exceeds max_boundary_distance, and otherwise set every zero
entry of the caller's DBF array to +infinity in place.  DBF is the
flattened array; values live in WithTop so that np.inf is a value. -/
def TEASAR_dbf_after (dbf : List (WithTop ℚ)) (maxBd : WithTop ℚ) : List (WithTop ℚ) :=
  if dbf.all (fun x => decide (x = 0)) then dbf
  else if dbf.foldr max 0 > maxBd then dbf
  else dbf.map (fun x => if x = 0 then ⊤ else x)

/- ------------------------------------------------------------------
Stage 1 and stage 2 task code (tasks.py).
------------------------------------------------------------------- -/

/-- Skeleton fragment: vertex positions, edge index pairs, radii
(definitions.Skeleton as used by tasks.py). -/
structure Skel where
  nodes : List (ℚ × ℚ × ℚ)
  edges : List (ℕ × ℕ)
  radii : List ℚ
deriving DecidableEq

/-- One iteration of the stage-2 fusion loop of
SkeletonMergeTask.fuse_skeletons (tasks.py lines 262-272): fragments
with no edges are skipped entirely, otherwise the fragment's edges are
shifted by the current offset, the offset grows by the fragment's vertex
count, and nodes/edges/radii are appended to the accumulator. -/
def fuseStep (acc : Skel × ℕ) (skel : Skel) : Skel × ℕ :=
  if skel.edges.length = 0 then acc
  else
    let es := skel.edges.map (fun e => (e.1 + acc.2, e.2 + acc.2))
    (⟨acc.1.nodes ++ skel.nodes, acc.1.edges ++ es, acc.1.radii ++ skel.radii⟩,
      acc.2 + skel.nodes.length)

/-- The stage-2 fusion concatenation (tasks.py lines 260-272): start from
skeletons[0] with offset = 0 and fold the remaining fragments. -/
def fuse_skeletons_concat (skels : List Skel) : Skel :=
  match skels with
  | [] => ⟨[], [], []⟩
  | s0 :: rest => (rest.foldl fuseStep (s0, 0)).1

/-- The stage-1 concatenation loop of SkeletonTask.process_label
(tasks.py lines 99-105).  With two or more skeletons the first loop
iteration evaluates np.concatenate(skeleton.nodes, skeletons[i].nodes),
whose second positional argument is the axis and must be an integer, so
the call raises TypeError before any concatenation happens. -/
def process_label_concat (skels : List Skel) : Except String Skel :=
  match skels with
  | [] => Except.ok ⟨[], [], []⟩
  | [s] => Except.ok s
  | _ :: _ :: _ => Except.error "TypeError: concatenate"

/-- Persistence effects stage 1 could emit (tasks.py lines 95-118). -/
inductive Stage1Eff : Type where
  | putFragment : String → Stage1Eff
  | uploadSkeleton : ℕ → Stage1Eff
deriving DecidableEq

/-- Tail of SkeletonTask.process_label after skeletonization (tasks.py
lines 95-118), as the list of persistence effects it performs.  With no
skeletons it returns without effects (line 95-97).  The put_file call
that would store the fragment under the {segid}:skel:{bbox} key (lines
107-113) is commented out in the source.  With one skeleton, execution
reaches line 115, which reads the name vol; vol is a local of execute
and is not in scope in process_label, so a NameError is raised before
any effect.  With two or more skeletons the concatenation loop raises
first (see process_label_concat). -/
def process_label_tail (numSkels : ℕ) : Except String (List Stage1Eff) :=
  if numSkels = 0 then Except.ok []
  else if 2 ≤ numSkels then Except.error "TypeError: concatenate"
  else Except.error "NameError: vol is not defined"

/-- Observable events of SkeletonMergeTask.agglomerate (tasks.py lines
202-224). -/
inductive MEv : Type where
  | upload : ℕ → MEv
  | putJson : ℕ → MEv
  | waitAll : MEv
  | deleteFrags : ℕ → MEv
  | errorRaised : ℕ → MEv
deriving DecidableEq

/-- The per-object merge loop of agglomerate (tasks.py lines 207-219):
for each segid build the point cloud, fuse, trim, upload the skeleton
and enqueue the provenance put_json.  ok says whether the merge of a
given segid succeeds; the loop has no try/except, so the first failing
object raises and the remaining objects are not processed.  Returns the
events emitted and whether the loop completed. -/
def mergeLoop (ok : ℕ → Bool) : List ℕ → List MEv × Bool
  | [] => ([], true)
  | s :: rest =>
    if ok s then
      let r := mergeLoop ok rest
      (MEv.upload s :: MEv.putJson s :: r.1, r.2)
    else ([MEv.errorRaised s], false)

/-- SkeletonMergeTask.agglomerate (tasks.py lines 202-224): run the
per-object merge loop, then stor.wait() (confirming the queued writes),
then delete every object's source fragments.  An exception escaping the
merge loop propagates out of agglomerate, so neither the wait nor any
deletion happens. -/
def agglomerate (ok : ℕ → Bool) (batch : List ℕ) : List MEv :=
  let r := mergeLoop ok batch
  if r.2 then r.1 ++ MEv.waitAll :: batch.map MEv.deleteFrags else r.1

/-- np.argwhere(img == segid) for one fragment chunk
(tasks.py line 231): img is the chunk volume listed voxel-by-voxel in C
order as (local coordinate, label value) pairs; the result keeps the
chunk-local coordinates of the voxels holding segid, in scan order. -/
def argwhere (img : List (Coord × ℕ)) (segid : ℕ) : List Coord :=
  (img.filter (fun p => p.2 = segid)).map (fun p => p.1)

/-- Insertion into a list sorted by le. -/
def insertBy {α : Type} (le : α → α → Bool) (x : α) : List α → List α
  | [] => [x]
  | y :: ys => if le x y then x :: y :: ys else y :: insertBy le x ys

/-- Insertion sort by le. -/
def sortBy {α : Type} (le : α → α → Bool) : List α → List α
  | [] => []
  | x :: xs => insertBy le x (sortBy le xs)

def natLe (a b : ℕ) : Bool := decide (a ≤ b)

/-- Lexicographic order on coordinate triples (the row order used by
np.unique(..., axis=0)). -/
def lexLe (a b : Coord) : Bool :=
  decide (a.1 < b.1) ||
    (decide (a.1 = b.1) &&
      (decide (a.2.1 < b.2.1) || (decide (a.2.1 = b.2.1) && decide (a.2.2 ≤ b.2.2))))

/-- Removal of adjacent duplicates from a sorted list. -/
def dedupAdj : List Coord → List Coord
  | [] => []
  | [x] => [x]
  | x :: y :: rest => if x = y then dedupAdj (y :: rest) else x :: dedupAdj (y :: rest)

def zip3 : List ℕ → List ℕ → List ℕ → List Coord
  | x :: xs, y :: ys, z :: zs => (x, y, z) :: zip3 xs ys zs
  | _, _, _ => []

/-- ptcloud.sort(axis=0) (tasks.py line 237): an in-place numpy sort
along axis 0 sorts each coordinate column independently, re-pairing
coordinates across rows. -/
def columnSort (pts : List Coord) : List Coord :=
  zip3 (sortBy natLe (pts.map (fun p => p.1)))
    (sortBy natLe (pts.map (fun p => p.2.1)))
    (sortBy natLe (pts.map (fun p => p.2.2)))

/-- np.unique(ptcloud, axis=0): lexicographically sorted unique rows. -/
def uniqueRows (pts : List Coord) : List Coord :=
  dedupAdj (sortBy lexLe pts)

/-- SkeletonMergeTask.get_point_cloud (tasks.py lines 226-238): per
fragment, slice the chunk volume and take argwhere(img == segid); then
concatenate, sort each column independently in place, and take unique
rows.  Each fragment chunk is given as its voxel list in C order. -/
def get_point_cloud (frags : List (List (Coord × ℕ))) (segid : ℕ) : List Coord :=
  let pt := (frags.map (fun img => argwhere img segid)).flatten
  if pt.isEmpty then [] else uniqueRows (columnSort pt)

/-- SkeletonTask.components (tasks.py lines 120-144): scipy labels the
object's connected components 1..N, but the loop is
"for i in range(1, N)", iterating i = 1 .. N-1; a component survives
when its bounding-box volume is > 1.  yields the surviving component
indices in order (vol i is the bounding-box volume of component i). -/
def components_enumerated (N : ℕ) (vol : ℕ → ℕ) : List ℕ :=
  (List.range' 1 (N - 1)).filter (fun i => ¬ vol i ≤ 1)

/-- The component loop of SkeletonTask.process_label (tasks.py lines
83-89): the body skeletonizes the yielded component and then executes
"break", so only the first yielded component is skeletonized. -/
def process_label_components (N : ℕ) (vol : ℕ → ℕ) : List ℕ :=
  (components_enumerated N vol).take 1

/- ------------------------------------------------------------------
Concrete inputs used by the theorems below.
------------------------------------------------------------------- -/

/-- Diamond input: two root-to-target paths that diverge and re-converge
at (1,1,0). -/
def dpaths : List (List Coord) :=
  [[(0,0,0),(1,0,0),(1,1,0)], [(0,0,0),(0,1,0),(1,1,0)]]

def dverts : List Coord := [(0,0,0),(1,0,0),(1,1,0),(0,1,0)]

def dedges : List (ℕ × ℕ) := [(0,1),(1,2),(0,3),(3,2)]

/-- Input whose second path shares no coordinate with the first, so its
coordinates are unreachable from the root (0,0,0). -/
def upaths : List (List Coord) :=
  [[(0,0,0),(1,0,0)], [(5,5,5),(6,5,5)]]

def uverts : List Coord := [(0,0,0),(1,0,0),(5,5,5),(6,5,5)]

def uedges : List (ℕ × ℕ) := [(0,1)]

/-- Y input: two paths from the shared root (0,0,0). -/
def ypaths : List (List Coord) :=
  [[(0,0,0),(1,0,0)], [(0,0,0),(2,0,0)]]

/-- The rooted tree that the adjacency recorded for ypaths forms. -/
def yTree : VTree :=
  VTree.node (0,0,0)
    (VForest.cons (VTree.node (1,0,0) VForest.nil)
      (VForest.cons (VTree.node (2,0,0) VForest.nil) VForest.nil))

/-- A two-vertex fragment with one edge. -/
def skelA : Skel := ⟨[(0,0,0),(1,1,1)], [(0,1)], [1,1]⟩

/-- A second two-vertex fragment with one edge. -/
def skelB : Skel := ⟨[(5,5,5),(6,6,6)], [(0,1)], [1,1]⟩

/-- Chunk holding object 7 at local voxels (0,1,0) and (1,0,0). -/
def img6 : List (Coord × ℕ) :=
  [((0,0,0),0), ((0,1,0),7), ((1,0,0),7), ((1,1,0),0)]

/-- Invariant of the registration state: the id counter equals the
vertex count, the vertices list is duplicate-free, tree_id has exactly
the registered vertices as keys, and tree_id maps each vertex to its
index in the vertices list (tree_id[x] = ct is assigned exactly when x
is appended to vertices). -/
def RegInv (st : PUState) : Prop :=
  st.ct = st.verts.length ∧ st.verts.Nodup ∧
  (∀ c : Coord, c ∈ st.verts ↔ (lookupA c st.tid).isSome = true) ∧
  (∀ c : Coord, ∀ i : ℕ, lookupA c st.tid = some i →
    i < st.verts.length ∧ st.verts.getD i default = c)

/- ------------------------------------------------------------------
Theorems.
------------------------------------------------------------------- -/

/-- C1: the claim says each appended fragment's edges are offset by the
total number of vertices appended before it.  The stage-2 fusion loop
initialises offset = 0 instead of the base fragment's vertex count, so
the second fragment's edge stays (0,1) and joins vertices of the first
fragment instead of becoming (2,3); and the stage-1 loop's
np.concatenate(a, b) call passes the second array as the axis argument
and raises TypeError as soon as two skeletons are concatenated. -/
theorem fuse_offsets_wrong :
    (fuse_skeletons_concat [skelA, skelB]).edges = [(0,1),(0,1)] ∧
    (fuse_skeletons_concat [skelA, skelB]).nodes.length = 4 ∧
    (fuse_skeletons_concat [skelA, skelB]).edges ≠ [(0,1),(2,3)] ∧
    process_label_concat [skelA, skelB] = Except.error "TypeError: concatenate" :=
  ⟨rfl, rfl, by decide, rfl⟩

/-- C5: the claim says every connected component is enumerated and every
surviving component is skeletonized.  scipy numbers components 1..N but
the loop is range(1, N), so with N = 2 only component 1 is visited and
component 2 is dropped; and the break in process_label skeletonizes only
the first yielded component, so with N = 3 components 1 and 2 survive
but only component 1 is skeletonized. -/
theorem components_enumeration_skips :
    components_enumerated 2 (fun _ => 8) = [1] ∧
    2 ∉ components_enumerated 2 (fun _ => 8) ∧
    components_enumerated 3 (fun _ => 8) = [1, 2] ∧
    process_label_components 3 (fun _ => 8) = [1] := by
  decide

/-- C6: the claim says each returned point of get_point_cloud is a voxel
holding object_id.  ptcloud.sort(axis=0) sorts the three coordinate
columns independently, re-pairing coordinates across rows: for a chunk
whose object voxels are (0,1,0) and (1,0,0) the returned points are
(0,0,0) and (1,1,0), neither of which holds the object id. -/
theorem point_cloud_scrambled :
    get_point_cloud [img6] 7 = [(0,0,0),(1,1,0)] ∧
    argwhere img6 7 = [(0,1,0),(1,0,0)] ∧
    (0,0,0) ∉ argwhere img6 7 := by
  decide

/-- C7: the claim says stage 1 scales the vertices and hands the
fragment to the persistence collaborator under the
object:skel:bbox key.  The put_file block is commented out in the
source, and the only non-error outcome of the tail of process_label
performs no persistence effect at all: with at least one skeleton the
code raises (NameError on the out-of-scope vol at the scaling line, or
TypeError in the concatenation loop) before persisting anything. -/
theorem process_label_never_persists :
    process_label_tail 0 = Except.ok [] ∧
    process_label_tail 1 = Except.error "NameError: vol is not defined" ∧
    process_label_tail 2 = Except.error "TypeError: concatenate" :=
  ⟨rfl, rfl, rfl⟩

/-- C9 counterexample: the claim says one object's merge failure never
aborts the batch.  With batch [1, 2] and object 1 failing, agglomerate
raises out of the merge loop: object 2 is never uploaded and no
fragments are deleted. -/
theorem merge_failure_aborts_batch :
    agglomerate (fun s => s != 1) [1, 2] = [MEv.errorRaised 1] ∧
    MEv.upload 2 ∉ agglomerate (fun s => s != 1) [1, 2] ∧
    MEv.deleteFrags 2 ∉ agglomerate (fun s => s != 1) [1, 2] := by
  decide

/-- C10 counterexample: the claim says that after every TEASAR call the
DBF array differs from its input at every voxel where it was 0.  An
all-zero DBF takes the early return (no foreground voxel), so the array
comes back unchanged at its zero voxel. -/
theorem teasar_dbf_not_always_mutated :
    TEASAR_dbf_after [(0 : WithTop ℚ)] 5000 = [(0 : WithTop ℚ)] ∧
    ([(0 : WithTop ℚ)].getD 0 0 = 0) := by
  constructor
  · rfl
  · rfl

/-- C3 counterexample: the claim says |edges| = |vertices| − (#disjoint
roots) for every input.  On the diamond input (two paths from one root
re-converging at one coordinate) path_union emits 4 edges over 4
vertices with a single root, because the traversal re-enters the shared
coordinate once per parent. -/
theorem path_union_diamond_counts :
    path_union dpaths 10 = some (dverts, dedges) ∧
    dedges.length = 4 ∧ dverts.length = 4 ∧ disjointRoots dpaths = 1 ∧
    ¬ (dedges.length = dverts.length - disjointRoots dpaths) := by
  decide

/-- C4 counterexample: the claim says path_union fails loudly on inputs
with a coordinate unreachable from the root.  On upaths, whose second
path shares nothing with the first, path_union returns normally; the
unreachable coordinates (5,5,5) and (6,5,5) are silently kept as
vertices 2 and 3 and appear in no edge. -/
theorem path_union_unreachable_no_failure :
    path_union upaths 5 = some (uverts, uedges) ∧
    (5,5,5) ∈ uverts ∧ (6,5,5) ∈ uverts ∧
    uedges.all (fun e => e.1 ≠ 2 && e.2 ≠ 2 && e.1 ≠ 3 && e.2 ≠ 3) = true := by
  decide

/-- The per-object merge loop emits no deletion events. -/
theorem mergeLoop_no_delete (ok : ℕ → Bool) (l : List ℕ) (s : ℕ) :
    MEv.deleteFrags s ∉ (mergeLoop ok l).1 := by
  induction l with
  | nil => simp [mergeLoop]
  | cons x rest ih =>
    by_cases h : ok x <;> simp [mergeLoop, h, ih]

/-- When the merge loop completes, every object of the batch has had its
skeleton uploaded and its provenance metadata enqueued. -/
theorem mergeLoop_complete_mem (ok : ℕ → Bool) (l : List ℕ) (s : ℕ)
    (hs : s ∈ l) (hc : (mergeLoop ok l).2 = true) :
    MEv.upload s ∈ (mergeLoop ok l).1 ∧ MEv.putJson s ∈ (mergeLoop ok l).1 := by
  induction l with
  | nil => cases hs
  | cons x rest ih =>
    by_cases h : ok x
    · simp only [mergeLoop, h, if_pos] at hc ⊢
      rcases List.mem_cons.1 hs with rfl | hmem
      · simp
      · have := ih hmem hc
        simp [this.1, this.2]
    · simp [mergeLoop, h] at hc

/-- C8: in every trace of the stage-2 merge, the deletion of an object's
source fragments comes strictly after the wait barrier that confirms the
queued writes, which itself comes after that object's skeleton upload
and provenance put_json; no deletion event ever precedes the barrier. -/
theorem delete_after_persist (ok : ℕ → Bool) (batch : List ℕ) (s : ℕ)
    (h : MEv.deleteFrags s ∈ agglomerate ok batch) :
    ∃ pre post, agglomerate ok batch = pre ++ MEv.waitAll :: post ∧
      MEv.upload s ∈ pre ∧ MEv.putJson s ∈ pre ∧
      MEv.deleteFrags s ∈ post ∧ MEv.deleteFrags s ∉ pre := by
  unfold agglomerate at h ⊢
  by_cases hc : (mergeLoop ok batch).2 = true
  · rw [if_pos hc] at h ⊢
    have hsb : s ∈ batch := by
      rcases List.mem_append.1 h with h1 | h2
      · exact absurd h1 (mergeLoop_no_delete ok batch s)
      · rcases List.mem_cons.1 h2 with he | hm
        · cases he
        · rcases List.mem_map.1 hm with ⟨x, hx, hxe⟩
          cases hxe
          exact hx
    have hmem := mergeLoop_complete_mem ok batch s hsb hc
    exact ⟨(mergeLoop ok batch).1, batch.map MEv.deleteFrags, rfl, hmem.1, hmem.2,
      List.mem_map_of_mem _ hsb, mergeLoop_no_delete ok batch s⟩
  · rw [if_neg hc] at h
    exact absurd h (mergeLoop_no_delete ok batch s)

/-- Witness for C8 at a concrete batch. -/
theorem delete_after_persist_w :
    MEv.deleteFrags 1 ∈ agglomerate (fun _ => true) [1, 2] ∧
    ∃ pre post, agglomerate (fun _ => true) [1, 2] = pre ++ MEv.waitAll :: post ∧
      MEv.upload 1 ∈ pre ∧ MEv.putJson 1 ∈ pre ∧
      MEv.deleteFrags 1 ∈ post ∧ MEv.deleteFrags 1 ∉ pre :=
  ⟨by decide, delete_after_persist (fun _ => true) [1, 2] 1 (by decide)⟩

/-- The merge loop up to the first failing object: every earlier object
is uploaded and enqueued, the failing object raises, and the loop
reports failure. -/
theorem mergeLoop_prefix_fail (ok : ℕ → Bool) (s : ℕ) (post : List ℕ)
    (hs : ok s = false) :
    ∀ pre : List ℕ, (∀ x ∈ pre, ok x = true) →
    mergeLoop ok (pre ++ s :: post) =
      (pre.flatMap (fun x => [MEv.upload x, MEv.putJson x]) ++ [MEv.errorRaised s],
        false) := by
  intro pre
  induction pre with
  | nil => intro _; simp [mergeLoop, hs]
  | cons x rest ih =>
    intro hp
    have hx : ok x = true := hp x (by simp)
    have hr := ih (fun y hy => hp y (by simp [hy]))
    simp [mergeLoop, hx, hr]

/-- C9 amended: when the merge of one object fails, agglomerate aborts
the batch at that object: the objects before it in iteration order are
merged and enqueued, the objects after it are not processed at all, and
no wait or fragment deletion happens. -/
theorem merge_failure_aborts_rest (ok : ℕ → Bool) (pre : List ℕ) (s : ℕ)
    (post : List ℕ) (hpre : ∀ x ∈ pre, ok x = true) (hs : ok s = false) :
    agglomerate ok (pre ++ s :: post) =
      pre.flatMap (fun x => [MEv.upload x, MEv.putJson x]) ++ [MEv.errorRaised s] := by
  unfold agglomerate
  rw [mergeLoop_prefix_fail ok s post hs pre hpre]
  simp

/-- Witness for the C9 amended theorem at a concrete batch. -/
theorem merge_failure_aborts_rest_w :
    agglomerate (fun s => s != 1) [0, 1, 2] =
      [MEv.upload 0, MEv.putJson 0, MEv.errorRaised 1] := by
  have h := merge_failure_aborts_rest (fun s => s != 1) [0] 1 [2]
    (by decide) (by decide)
  simpa using h

/-- Coverage of the extraction loop: under the spec contracts on
find_target (returns a member of the remaining set) and on the
invalidation test (every extracted path invalidates its own target),
every voxel of the remaining set is invalidated by one of the emitted
paths, provided the fuel exceeds the number of remaining voxels. -/
theorem teasarLoop_covers {V : Type} [DecidableEq V] (findT : Finset V → V)
    (genP : V → List V) (inval : List V → V → Bool)
    (hfind : ∀ S : Finset V, S ≠ ∅ → findT S ∈ S)
    (hself : ∀ S : Finset V, S ≠ ∅ → inval (genP (findT S)) (findT S) = true) :
    ∀ fuel : ℕ, ∀ labels : Finset V, labels.card < fuel →
      ∀ w ∈ labels, ∃ p ∈ teasarLoop findT genP inval fuel labels.card labels,
        inval p w = true := by
  intro fuel
  induction fuel with
  | zero => intro labels h; omega
  | succ n ih =>
    intro labels hcard w hw
    have hne : labels ≠ ∅ := by
      intro h
      subst h
      exact absurd hw (Finset.not_mem_empty w)
    have hvalid : labels.card ≠ 0 := by
      simpa [Finset.card_eq_zero] using hne
    have htmem : findT labels ∈ labels := hfind labels hne
    have htinv : inval (genP (findT labels)) (findT labels) = true := hself labels hne
    simp only [teasarLoop, if_neg hvalid]
    by_cases hcov : inval (genP (findT labels)) w = true
    · exact ⟨genP (findT labels), List.mem_cons_self _ _, hcov⟩
    · have hwnew : w ∈ labels.filter (fun v => inval (genP (findT labels)) v = false) :=
        Finset.mem_filter.2 ⟨hw, by simpa using hcov⟩
      have htnew : findT labels ∉ labels.filter
          (fun v => inval (genP (findT labels)) v = false) := by
        intro hmem
        have := (Finset.mem_filter.1 hmem).2
        rw [htinv] at this
        cases this
      have hsub : labels.filter (fun v => inval (genP (findT labels)) v = false)
          ⊆ labels := Finset.filter_subset _ _
      have hlt : (labels.filter (fun v => inval (genP (findT labels)) v = false)).card
          < labels.card :=
        Finset.card_lt_card ((Finset.ssubset_iff_of_subset hsub).2
          ⟨findT labels, htmem, htnew⟩)
      have hle : (labels.filter (fun v => inval (genP (findT labels)) v = false)).card
          ≤ labels.card := Finset.card_le_card hsub
      have hct : labels.card - (labels.card -
          (labels.filter (fun v => inval (genP (findT labels)) v = false)).card) =
          (labels.filter (fun v => inval (genP (findT labels)) v = false)).card := by
        omega
      rw [hct]
      obtain ⟨p, hp, hpcov⟩ := ih
        (labels.filter (fun v => inval (genP (findT labels)) v = false))
        (by omega) w hwnew
      exact ⟨p, List.mem_cons_of_mem _ hp, hpcov⟩

/-- C2: when the TEASAR extraction loop terminates, every voxel that was
foreground at the start is covered by the invalidation ball of some
emitted path (radius scale*DBF(v) + const around each path vertex v),
and the loop keeps running while any foreground voxel remains: the model
stops only when the remaining-voxel counter hits zero, and card + 1
iterations always reach that point.  find_target and the dijkstra path
query enter as parameters under their spec contracts. -/
theorem TEASAR_invalidation_covers {V : Type} [DecidableEq V]
    (findT : Finset V → V) (genP : V → List V) (d : V → V → ℚ) (dbf : V → ℚ)
    (scale const : ℚ) (labels : Finset V)
    (hfind : ∀ S : Finset V, S ≠ ∅ → findT S ∈ S)
    (hpath : ∀ t : V, t ∈ genP t)
    (hd : ∀ v : V, d v v = 0)
    (hscale : 0 ≤ scale) (hconst : 0 ≤ const) (hdbf : ∀ v : V, 0 ≤ dbf v) :
    ∀ w ∈ labels,
      ∃ p ∈ TEASAR_paths findT genP (ballCov d dbf scale const) labels,
        ballCov d dbf scale const p w = true := by
  have hself : ∀ S : Finset V, S ≠ ∅ →
      ballCov d dbf scale const (genP (findT S)) (findT S) = true := by
    intro S _
    unfold ballCov
    rw [List.any_eq_true]
    refine ⟨findT S, hpath _, ?_⟩
    rw [hd]
    exact decide_eq_true (add_nonneg (mul_nonneg hscale (hdbf _)) hconst)
  intro w hw
  exact teasarLoop_covers findT genP (ballCov d dbf scale const) hfind hself
    (labels.card + 1) labels (by omega) w hw

/-- find_target instantiation used by the C2 witness: the minimum of a
nonempty finite set belongs to it. -/
theorem findMin_mem (S : Finset ℕ) (h : S ≠ ∅) :
    (if h2 : S.Nonempty then S.min' h2 else 0) ∈ S := by
  have hne : S.Nonempty := Finset.nonempty_iff_ne_empty.2 h
  rw [dif_pos hne]
  exact S.min'_mem hne

/-- Witness for C2 at a concrete two-voxel foreground set. -/
theorem TEASAR_invalidation_covers_w :
    (0 : ℕ) ∈ ({0, 1} : Finset ℕ) ∧
    ∃ p ∈ TEASAR_paths (fun S : Finset ℕ => if h : S.Nonempty then S.min' h else 0)
        (fun t => [t])
        (ballCov (fun a b : ℕ => if a = b then 0 else 1) (fun _ => 1) 1 0)
        ({0, 1} : Finset ℕ),
      ballCov (fun a b : ℕ => if a = b then 0 else 1) (fun _ => 1) 1 0 p 0 = true :=
  ⟨by decide,
    TEASAR_invalidation_covers
      (fun S : Finset ℕ => if h : S.Nonempty then S.min' h else 0)
      (fun t => [t]) (fun a b : ℕ => if a = b then 0 else 1) (fun _ => 1) 1 0
      ({0, 1} : Finset ℕ)
      (fun S h => findMin_mem S h)
      (fun t => List.mem_singleton.2 rfl)
      (fun v => if_pos rfl)
      (by norm_num) (by norm_num) (fun v => by norm_num)
      0 (by decide)⟩

/-- C10 amended: when TEASAR does not take its early return (some DBF
entry is nonzero and the maximum does not exceed
max_boundary_distance), it mutates the caller's DBF array in place:
every zero entry becomes +inf, so the array differs from its input
there, and every nonzero entry (the foreground values later sampled as
radii) is unchanged. -/
theorem teasar_dbf_mutation (dbf : List (WithTop ℚ)) (maxBd : WithTop ℚ)
    (h1 : dbf.all (fun x => decide (x = 0)) = false)
    (h2 : ¬ dbf.foldr max 0 > maxBd) :
    ∀ i : ℕ, i < dbf.length →
      (dbf.getD i 0 = 0 →
        (TEASAR_dbf_after dbf maxBd).getD i 0 = ⊤ ∧
        (TEASAR_dbf_after dbf maxBd).getD i 0 ≠ dbf.getD i 0) ∧
      (dbf.getD i 0 ≠ 0 →
        (TEASAR_dbf_after dbf maxBd).getD i 0 = dbf.getD i 0) := by
  intro i hi
  have hres : TEASAR_dbf_after dbf maxBd =
      dbf.map (fun x => if x = 0 then ⊤ else x) := by
    unfold TEASAR_dbf_after
    rw [if_neg (by simp [h1]), if_neg h2]
  have hx : dbf[i]? = some dbf[i] := List.getElem?_eq_getElem hi
  have hgd : dbf.getD i 0 = dbf[i] := by
    simp [List.getD_eq_getElem?_getD, hx]
  have hmap : (dbf.map (fun x => if x = 0 then ⊤ else x)).getD i 0 =
      (if dbf[i] = 0 then ⊤ else dbf[i]) := by
    simp [List.getD_eq_getElem?_getD, List.getElem?_map, hx]
  rw [hres, hmap, hgd]
  by_cases h0 : dbf[i] = 0
  · simp [h0]
  · simp [h0]

/-- Witness for the C10 amended theorem on DBF = [0, 3]. -/
theorem teasar_dbf_mutation_w :
    (TEASAR_dbf_after [(0 : WithTop ℚ), 3] 5000).getD 0 0 = ⊤ ∧
    (TEASAR_dbf_after [(0 : WithTop ℚ), 3] 5000).getD 1 0 =
      [(0 : WithTop ℚ), 3].getD 1 0 := by
  have h := teasar_dbf_mutation [(0 : WithTop ℚ), 3] 5000 (by decide) (by decide)
  exact ⟨((h 0 (by decide)).1 (by decide)).1, (h 1 (by decide)).2 (by decide)⟩

/-- Lookup after appending one binding at the end of an association list. -/
theorem lookupA_append_single {α : Type} (k k2 : Coord) (v : α)
    (l : List (Coord × α)) :
    lookupA k (l ++ [(k2, v)]) =
      match lookupA k l with
      | some w => some w
      | none => if k2 = k then some v else none := by
  induction l with
  | nil => simp [lookupA]
  | cons p rest ih =>
    obtain ⟨a, b⟩ := p
    by_cases h : a = k <;> simp [lookupA, h, ih]

/-- reg1 preserves the registration invariant. -/
theorem regInv_reg1 (st : PUState) (x : Coord) (h : RegInv st) :
    RegInv (reg1 st x) := by
  obtain ⟨hct, hnd, hmem, hidx⟩ := h
  unfold reg1
  by_cases hx : (lookupA x st.tid).isSome = true
  · rw [if_pos hx]
    exact ⟨hct, hnd, hmem, hidx⟩
  · rw [if_neg hx]
    have hxmem : x ∉ st.verts := fun hm => hx ((hmem x).1 hm)
    refine ⟨by simp [hct], ?_, ?_, ?_⟩
    · exact List.nodup_append.2 ⟨hnd, List.nodup_singleton x,
        by simpa [List.disjoint_singleton] using hxmem⟩
    · intro c
      rw [lookupA_append_single]
      cases hlk : lookupA c st.tid with
      | some w =>
        have hc : c ∈ st.verts := (hmem c).2 (by simp [hlk])
        simp [hc]
      | none =>
        have hc : c ∉ st.verts := fun hm => by
          have := (hmem c).1 hm
          rw [hlk] at this
          cases this
        constructor
        · intro hin
          rcases List.mem_append.1 hin with h1 | h2
          · exact absurd h1 hc
          · have : c = x := by simpa using h2
            simp [this]
        · intro hin
          by_cases hex : x = c
          · subst hex
            simp
          · simp [hex] at hin
    · intro c i hlk2
      rw [lookupA_append_single] at hlk2
      cases hlk : lookupA c st.tid with
      | some w =>
        rw [hlk] at hlk2
        have hw := hidx c w hlk
        cases hlk2
        constructor
        · simpa using Nat.lt_succ_of_lt hw.1
        · rw [List.getD_append _ _ _ _ hw.1]
          exact hw.2
      | none =>
        rw [hlk] at hlk2
        by_cases hex : x = c
        · subst hex
          rw [if_pos rfl] at hlk2
          cases hlk2
          constructor
          · simp [hct]
          · rw [hct, List.getD_append_right _ _ _ _ (le_refl _)]
            simp
        · rw [if_neg hex] at hlk2
          cases hlk2

/-- The registration invariant does not mention the adjacency, so
rewriting the tree field preserves it. -/
theorem regInv_tree (st : PUState) (t : List (Coord × List Coord))
    (h : RegInv st) : RegInv { st with tree := t } := h

/-- registerPair preserves the registration invariant. -/
theorem regInv_registerPair (st : PUState) (p c : Coord) (h : RegInv st) :
    RegInv (registerPair st p c) := by
  unfold registerPair
  exact regInv_reg1 _ _ (regInv_tree _ _ (regInv_reg1 _ _ (regInv_tree _ _ h)))

/-- registerPath preserves the registration invariant. -/
theorem regInv_registerPath (st : PUState) (path : List Coord)
    (h : RegInv st) : RegInv (registerPath st path) := by
  unfold registerPath
  generalize (path.zip path.tail) = prs
  induction prs generalizing st with
  | nil => exact h
  | cons pr rest ih =>
    simp only [List.foldl_cons]
    exact ih _ (regInv_registerPair _ _ _ h)

/-- The full registration loop satisfies the invariant. -/
theorem regInv_registerAll (paths : List (List Coord)) :
    RegInv (registerAll paths) := by
  unfold registerAll
  have hbase : RegInv (⟨[], [], [], 0⟩ : PUState) := by
    refine ⟨rfl, List.nodup_nil, ?_, ?_⟩
    · intro c
      simp [lookupA]
    · intro c i h
      simp [lookupA] at h
  generalize hini : (⟨[], [], [], 0⟩ : PUState) = ini
  rw [hini] at hbase
  clear hini
  induction paths generalizing ini with
  | nil => exact hbase
  | cons p rest ih =>
    simp only [List.foldl_cons]
    exact ih _ (regInv_registerPath _ _ hbase)

/-- The root label of a tree appears among its labels. -/
theorem VTree_top_mem_labels (t : VTree) : VTree.top t ∈ VTree.labels t := by
  cases t with
  | node x f => simp [VTree.top, VTree.labels]

mutual
theorem VTree_size_labels : ∀ t : VTree, (VTree.labels t).length = VTree.size t
  | .node x f => by
    simp [VTree.labels, VTree.size, VForest_size_labels f]
    omega
theorem VForest_size_labels : ∀ f : VForest, (VForest.labels f).length = VForest.size f
  | .nil => by simp [VForest.labels, VForest.size]
  | .cons t f => by
    simp [VForest.labels, VForest.size, VTree_size_labels t, VForest_size_labels f]
end

mutual
/-- When the recorded adjacency agrees with a rooted tree whose labels
are all registered, the traversal from the tree root succeeds (given
fuel at least the tree height) and emits size − 1 edges. -/
theorem traverse_tree_ok (tr : List (Coord × List Coord)) (idOf : Coord → Option ℕ) :
    ∀ t : VTree, ∀ fuel : ℕ, VTree.ht t ≤ fuel →
      VTree.agrees (childrenOf tr) t = true →
      (∀ c ∈ VTree.labels t, (idOf c).isSome = true) →
      ∃ es, traverseL tr idOf fuel (VTree.top t) (childrenOf tr (VTree.top t)) = some es ∧
        es.length + 1 = VTree.size t
  | .node x f, fuel, hht, hag, hreg => by
    have hagp := hag
    simp only [VTree.agrees, Bool.and_eq_true, beq_iff_eq] at hagp
    obtain ⟨hch, hagf⟩ := hagp
    have hxi : (idOf x).isSome = true := hreg x (by simp [VTree.labels])
    obtain ⟨ix, hix⟩ := Option.isSome_iff_exists.1 hxi
    have hregf : ∀ c ∈ VForest.labels f, (idOf c).isSome = true := by
      intro c hc
      exact hreg c (by simp [VTree.labels, hc])
    cases fuel with
    | zero =>
      have hf0 : VForest.ht f = 0 := by
        simpa [VTree.ht] using hht
      cases f with
      | nil =>
        refine ⟨[], ?_, ?_⟩
        · simp only [VTree.top]
          rw [hch]
          rfl
        · simp [VTree.size, VForest.size]
      | cons t2 f2 =>
        exfalso
        simp [VForest.ht] at hf0
    | succ m =>
      have hhtf : VForest.ht f ≤ m + 1 := by
        simpa [VTree.ht] using hht
      obtain ⟨es, hes, hlen⟩ := traverse_forest_ok tr idOf f m x ix hhtf hix hagf hregf
      refine ⟨es, ?_, ?_⟩
      · simp only [VTree.top, traverseL]
        rw [hch]
        exact hes
      · simp [VTree.size, hlen]
        omega
/-- Forest version of the traversal lemma: traversing the top labels of
a forest from a registered parent emits exactly size-of-forest edges. -/
theorem traverse_forest_ok (tr : List (Coord × List Coord)) (idOf : Coord → Option ℕ) :
    ∀ f : VForest, ∀ m : ℕ, ∀ p : Coord, ∀ ip : ℕ, VForest.ht f ≤ m + 1 →
      idOf p = some ip →
      VForest.agrees (childrenOf tr) f = true →
      (∀ c ∈ VForest.labels f, (idOf c).isSome = true) →
      ∃ es, traverseGo tr idOf (traverseL tr idOf m) p (VForest.tops f) = some es ∧
        es.length = VForest.size f
  | .nil, m, p, ip, _, _, _, _ => ⟨[], rfl, rfl⟩
  | .cons t f2, m, p, ip, hht, hip, hag, hreg => by
    have hagp := hag
    simp only [VForest.agrees, Bool.and_eq_true] at hagp
    obtain ⟨hagt, hagf2⟩ := hagp
    have hhtp : VTree.ht t ≤ m ∧ VForest.ht f2 ≤ m + 1 := by
      simp only [VForest.ht] at hht
      exact ⟨by omega, by omega⟩
    have hjS : (idOf (VTree.top t)).isSome = true :=
      hreg _ (by simp [VForest.labels, VTree_top_mem_labels t])
    obtain ⟨j, hj⟩ := Option.isSome_iff_exists.1 hjS
    have hregt : ∀ c ∈ VTree.labels t, (idOf c).isSome = true := by
      intro c hc
      exact hreg c (by simp [VForest.labels, hc])
    have hregf2 : ∀ c ∈ VForest.labels f2, (idOf c).isSome = true := by
      intro c hc
      exact hreg c (by simp [VForest.labels, hc])
    obtain ⟨sub, hsub, hsublen⟩ := traverse_tree_ok tr idOf t m hhtp.1 hagt hregt
    obtain ⟨rest, hrest, hrestlen⟩ :=
      traverse_forest_ok tr idOf f2 m p ip hhtp.2 hip hagf2 hregf2
    refine ⟨(ip, j) :: (sub ++ rest), ?_, ?_⟩
    · simp only [VForest.tops, traverseGo]
      rw [hip, hj, hsub, hrest]
    · simp only [VForest.size, List.length_cons, List.length_append]
      omega
end

/-- C3 amended: path_union output is duplicate-free (no coordinate ever
receives two vertex ids), and whenever the recorded adjacency forms a
rooted tree on the registered coordinates (each coordinate reached
exactly once from the root, which the diamond counterexample shows is
not automatic), the traversal emits exactly |vertices| − 1 edges, i.e.
|edges| = |vertices| − (#disjoint roots) with one root. -/
theorem path_union_tree_valid (r : Coord) (p0 : List Coord) (ps : List (List Coord))
    (T : VTree) (fuel : ℕ)
    (hagree : VTree.agrees (childrenOf (registerAll ((r :: p0) :: ps)).tree) T = true)
    (hperm : (VTree.labels T).Perm (registerAll ((r :: p0) :: ps)).verts)
    (hroot : VTree.top T = r)
    (hfuel : VTree.ht T ≤ fuel) :
    ∃ E, path_union ((r :: p0) :: ps) fuel =
        some ((registerAll ((r :: p0) :: ps)).verts, E) ∧
      E.length + 1 = (registerAll ((r :: p0) :: ps)).verts.length ∧
      (registerAll ((r :: p0) :: ps)).verts.Nodup := by
  obtain ⟨hct, hnd, hmem, hidx⟩ := regInv_registerAll ((r :: p0) :: ps)
  have hreg : ∀ c ∈ VTree.labels T,
      ((fun x => lookupA x (registerAll ((r :: p0) :: ps)).tid) c).isSome = true := by
    intro c hc
    exact (hmem c).1 (hperm.mem_iff.1 hc)
  obtain ⟨es, hes, hlen⟩ := traverse_tree_ok
    (registerAll ((r :: p0) :: ps)).tree
    (fun x => lookupA x (registerAll ((r :: p0) :: ps)).tid)
    T fuel hfuel hagree hreg
  rw [hroot] at hes
  refine ⟨es, ?_, ?_, hnd⟩
  · simp only [path_union]
    rw [hes]
  · rw [hlen, ← VTree_size_labels T, hperm.length_eq]

/-- Witness for the C3 amended theorem on the Y input, whose recorded
adjacency is the rooted tree yTree. -/
theorem path_union_tree_valid_w :
    ∃ E, path_union ypaths 3 = some ((registerAll ypaths).verts, E) ∧
      E.length + 1 = (registerAll ypaths).verts.length ∧
      (registerAll ypaths).verts.Nodup :=
  path_union_tree_valid (0,0,0) [(1,0,0)] [[(0,0,0),(2,0,0)]] yTree 3
    (by decide) (by decide) (by decide) (by decide)

/-- Bounded reachability is reflexive at every fuel. -/
theorem reachB_self (tr : List (Coord × List Coord)) :
    ∀ n : ℕ, ∀ p : Coord, reachB tr n p p = true
  | 0, p => by simp [reachB]
  | n + 1, p => by simp [reachB]

/-- One recorded adjacency step extends bounded reachability. -/
theorem reachB_step (tr : List (Coord × List Coord)) (n : ℕ) (p c a : Coord)
    (hc : c ∈ childrenOf tr p) (h : reachB tr n c a = true) :
    reachB tr (n + 1) p a = true := by
  simp only [reachB, Bool.or_eq_true, List.any_eq_true]
  exact Or.inr ⟨c, hc, h⟩

/-- Every edge emitted by the traversal joins the ids of two coordinates
reachable from the starting vertex within the traversal fuel. -/
theorem traverse_reach (tr : List (Coord × List Coord)) (idOf : Coord → Option ℕ) :
    ∀ fuel : ℕ, ∀ p : Coord, ∀ cs : List Coord, ∀ es : List (ℕ × ℕ),
      traverseL tr idOf fuel p cs = some es →
      (∀ c ∈ cs, c ∈ childrenOf tr p) →
      ∀ e ∈ es, ∃ a b : Coord, idOf a = some e.1 ∧ idOf b = some e.2 ∧
        reachB tr fuel p a = true ∧ reachB tr fuel p b = true := by
  intro fuel
  induction fuel with
  | zero =>
    intro p cs es h hcs e he
    cases cs with
    | nil =>
      simp only [traverseL] at h
      cases h
      cases he
    | cons c cs2 =>
      simp only [traverseL] at h
      cases h
  | succ n ih =>
    intro p cs
    induction cs with
    | nil =>
      intro es h hcs e he
      simp only [traverseL, traverseGo] at h
      cases h
      cases he
    | cons c cs2 ihc =>
      intro es h hcs e he
      simp only [traverseL, traverseGo] at h
      cases hip : idOf p with
      | none => rw [hip] at h; cases h
      | some i =>
        cases hic : idOf c with
        | none => rw [hip, hic] at h; cases h
        | some j =>
          rw [hip, hic] at h
          cases hsub : traverseL tr idOf n c (childrenOf tr c) with
          | none => rw [hsub] at h; cases h
          | some sub =>
            cases hrest : traverseGo tr idOf (traverseL tr idOf n) p cs2 with
            | none => rw [hsub, hrest] at h; cases h
            | some rest =>
              rw [hsub, hrest] at h
              injection h with h2
              subst h2
              rcases List.mem_cons.1 he with rfl | hmem
              · exact ⟨p, c, hip, hic, reachB_self tr (n + 1) p,
                  reachB_step tr n p c c (hcs c (by simp)) (reachB_self tr n c)⟩
              · rcases List.mem_append.1 hmem with hm1 | hm2
                · obtain ⟨a, b, ha, hb, hra, hrb⟩ :=
                    ih c (childrenOf tr c) sub hsub (fun x hx => hx) e hm1
                  exact ⟨a, b, ha, hb,
                    reachB_step tr n p c a (hcs c (by simp)) hra,
                    reachB_step tr n p c b (hcs c (by simp)) hrb⟩
                · exact ihc rest (by simp only [traverseL]; exact hrest)
                    (fun x hx => hcs x (by simp [hx])) e hm2

/-- C4 amended: on inputs containing a coordinate unreachable from the
root, path_union does not fail: whenever it returns, every returned edge
joins the ids of coordinates reachable from the root, so an unreachable
coordinate is retained as a vertex with no incident edge (silently
orphaned rather than surfaced). -/
theorem path_union_unreachable_orphan (r : Coord) (p0 : List Coord)
    (ps : List (List Coord)) (fuel : ℕ) (V : List Coord) (E : List (ℕ × ℕ))
    (c : Coord)
    (hres : path_union ((r :: p0) :: ps) fuel = some (V, E))
    (hunreach : reachB (registerAll ((r :: p0) :: ps)).tree fuel r c = false) :
    ∀ e ∈ E, V.getD e.1 default ≠ c ∧ V.getD e.2 default ≠ c := by
  intro e he
  obtain ⟨hct, hnd, hmem, hidx⟩ := regInv_registerAll ((r :: p0) :: ps)
  simp only [path_union] at hres
  cases htr : traverseL (registerAll ((r :: p0) :: ps)).tree
      (fun x => lookupA x (registerAll ((r :: p0) :: ps)).tid) fuel r
      (childrenOf (registerAll ((r :: p0) :: ps)).tree r) with
  | none => rw [htr] at hres; cases hres
  | some es =>
    rw [htr] at hres
    injection hres with hres2
    injection hres2 with hV hE
    subst hV
    subst hE
    obtain ⟨a, b, ha, hb, hra, hrb⟩ := traverse_reach
      (registerAll ((r :: p0) :: ps)).tree
      (fun x => lookupA x (registerAll ((r :: p0) :: ps)).tid)
      fuel r _ es htr (fun x hx => hx) e he
    constructor
    · intro hgd
      have hia := hidx a e.1 ha
      rw [hia.2] at hgd
      have hcr : reachB (registerAll ((r :: p0) :: ps)).tree fuel r c = true :=
        hgd ▸ hra
      rw [hcr] at hunreach
      cases hunreach
    · intro hgd
      have hib := hidx b e.2 hb
      rw [hib.2] at hgd
      have hcr : reachB (registerAll ((r :: p0) :: ps)).tree fuel r c = true :=
        hgd ▸ hrb
      rw [hcr] at hunreach
      cases hunreach

/-- Witness for the C4 amended theorem: on upaths the only returned edge
touches neither of the ids holding the unreachable coordinate (5,5,5). -/
theorem path_union_unreachable_orphan_w :
    uverts.getD 0 default ≠ (5,5,5) ∧ uverts.getD 1 default ≠ (5,5,5) :=
  path_union_unreachable_orphan (0,0,0) [(1,0,0)] [[(5,5,5),(6,5,5)]] 5 uverts uedges
    (5,5,5) (by decide) (by decide) (0, 1) (by decide)
